import Mathlib

/-!
Verification of the Sudoku solver in `sudoku.c`.

The C program keeps, for every row, column and 3x3 square, a 16-bit mask of
the digits still available there, and solves a 9x9 grid by
  * `step1` (propagation): repeatedly fill the first empty cell that has
    exactly one candidate, restarting the scan after every fill;
  * `step2` (backtracking): recursively try every available digit, in
    ascending order, in the row-major-first empty cell, on a full copy of
    the grid per trial.
The definitions below are a shallow embedding of that code: machine
integers become `Nat` (all masks live below `2 ^ 16`, so the C bit
operations coincide with the `Nat` ones), the C arrays become functions
out of `Fin` types, the in-place mutations of `step1` become explicit
state passing, and the bounded recursion of both solvers is expressed
with a fuel parameter (81 cells bound the recursion depth; fuel 82 is
always enough, which is proved below).
-/

set_option maxRecDepth 40000

namespace SudokuSrc

/-- The `Sudoku` struct of the C source: availability masks for the nine
rows, the nine columns and the nine 3x3 squares, plus the cell contents
(`0` means empty). The 2-dimensional C arrays `sqr[3][3]` and `cell[9][9]`
are functions out of pair types. -/
structure Sudoku where
  row : Fin 9 → Nat
  col : Fin 9 → Nat
  sqr : Fin 3 × Fin 3 → Nat
  cell : Fin 9 × Fin 9 → Nat

instance : DecidableEq Sudoku := fun a b =>
  decidable_of_iff (a.row = b.row ∧ a.col = b.col ∧ a.sqr = b.sqr ∧ a.cell = b.cell)
    (by
      constructor
      · rintro ⟨h1, h2, h3, h4⟩; cases a; cases b; simp_all
      · rintro rfl; exact ⟨rfl, rfl, rfl, rfl⟩)

/-- The type of the `cell` array alone. -/
abbrev Cells := (Fin 9 × Fin 9) → Nat

/-- `BIT_FOR_VALUE(val)` of the C source: `1 << (val - 1)`. -/
def BIT_FOR_VALUE (val : Nat) : Nat := 1 <<< (val - 1)

/-- `m &= ~BIT_FOR_VALUE(v)` on a `uint16_t`: complementing within 16 bits
is xor with `0xFFFF`. -/
def clearBit (m v : Nat) : Nat := m &&& (0xFFFF ^^^ BIT_FOR_VALUE v)

/-- The 3x3 square holding cell `p`: indices `row/3`, `col/3`. -/
def sqIdx (p : Fin 9 × Fin 9) : Fin 3 × Fin 3 :=
  (⟨p.1.val / 3, by have := p.1.2; omega⟩, ⟨p.2.val / 3, by have := p.2.2; omega⟩)

/-- The ascending list `[k, k+1, ..., k+n-1]`, modelling a C `for` loop
counting `n` steps from `k`. -/
def ascList (k n : Nat) : List Nat :=
  match n with
  | 0 => []
  | n + 1 => k :: ascList (k + 1) n

/-- Row-major index of a cell, `9 * row + col`. -/
def rmIdx (p : Fin 9 × Fin 9) : Nat := p.1.val * 9 + p.2.val

/-- The cell with row-major index `n` (total function; for `n < 81` it
inverts `rmIdx`). -/
def cellOf (n : Nat) : Fin 9 × Fin 9 :=
  (⟨n / 9 % 9, Nat.mod_lt _ (by norm_num)⟩, ⟨n % 9, Nat.mod_lt _ (by norm_num)⟩)

/-- All 81 cells in row-major order: the scan order of every loop nest
`for (row...) for (col...)` in the C source. -/
def cellList : List (Fin 9 × Fin 9) := (ascList 0 81).map cellOf

/-- `find_empty_cell`: the first cell in row-major order whose content is
`0`, or `none` when the grid is full. -/
def find_empty_cell (s : Sudoku) : Option (Fin 9 × Fin 9) :=
  ((ascList 0 81).find? (fun n => decide (s.cell (cellOf n) = 0))).map cellOf

/-- `fill_cell`: write `value` into the cell and clear its bit in the three
masks of the row, column and square of that cell. -/
def fill_cell (s : Sudoku) (r c : Fin 9) (value : Nat) : Sudoku :=
  { s with
    cell := Function.update s.cell (r, c) value
    row := Function.update s.row r (clearBit (s.row r) value)
    col := Function.update s.col c (clearBit (s.col c) value)
    sqr := Function.update s.sqr (sqIdx (r, c)) (clearBit (s.sqr (sqIdx (r, c))) value) }

/-- `available_values_in_cell`: bitwise AND of the row, column and square
masks of the cell. -/
def available_values_in_cell (s : Sudoku) (r c : Fin 9) : Nat :=
  s.row r &&& s.col c &&& s.sqr (sqIdx (r, c))

/-- The 512-entry lookup table `only_possible_value` of `step1`: maps the
nine one-bit masks to their digit, everything else to 0. -/
def only_possible_value (m : Nat) : Nat :=
  if m = 0x001 then 1
  else if m = 0x002 then 2
  else if m = 0x004 then 3
  else if m = 0x008 then 4
  else if m = 0x010 then 5
  else if m = 0x020 then 6
  else if m = 0x040 then 7
  else if m = 0x080 then 8
  else if m = 0x100 then 9
  else 0

/-- The number of empty cells of a grid (the `empty_cell_count` that a full
scan pass of `step1` computes). -/
def numEmpty (s : Sudoku) : Nat :=
  (Finset.univ.filter fun p : Fin 9 × Fin 9 => s.cell p = 0).card

/-- The scan pass of `step1`: the first empty cell, in row-major order,
whose candidate mask maps to a nonzero entry of `only_possible_value`,
together with that forced digit. -/
def findForced (s : Sudoku) : Option ((Fin 9 × Fin 9) × Nat) :=
  match (ascList 0 81).find? (fun n =>
      decide (s.cell (cellOf n) = 0) &&
      decide (0 < only_possible_value
        (available_values_in_cell s (cellOf n).1 (cellOf n).2))) with
  | none => none
  | some n =>
    some (cellOf n,
      only_possible_value (available_values_in_cell s (cellOf n).1 (cellOf n).2))

/-- `step1` with explicit fuel: each `goto next_single_value_cell` restart
consumes one unit of fuel; every restart follows a `fill_cell` of an empty
cell, so 82 units always suffice (proved below as `step1F_congr` /
`numEmpty_le_81`).  The result is the C return value paired with the final
state of the in-place mutated grid. -/
def step1F : Nat → Sudoku → Bool × Sudoku
  | 0, s => (false, s)
  | fuel + 1, s =>
    match findForced s with
    | some (p, v) => step1F fuel (fill_cell s p.1 p.2 v)
    | none => (decide (numEmpty s = 0), s)

/-- `step1` of the C source, at fuel 82 (always sufficient). -/
def step1 (s : Sudoku) : Bool × Sudoku := step1F 82 s

/-- The ascending value list `1..9` of the `for (value = 1; value <= 9; ...)`
loop of `step2`. -/
def valList : List Nat := ascList 1 9

/-- The trial loop of `step2`: for each value of the list whose bit is set
in `avail`, fill a fresh copy of the grid and recurse through `step`;
the first success short-circuits. -/
def tryValues (step : Sudoku → Option Sudoku) (s : Sudoku) (r c : Fin 9)
    (avail : Nat) : List Nat → Option Sudoku
  | [] => none
  | v :: vs =>
    if avail &&& BIT_FOR_VALUE v ≠ 0 then
      match step (fill_cell s r c v) with
      | some g => some g
      | none => tryValues step s r c avail vs
    else tryValues step s r c avail vs

/-- `step2` with explicit fuel, one unit per recursive call.  A `some g`
result models the C function returning 1 after printing the solved grid
`g`; `none` models returning 0. -/
def step2F : Nat → Sudoku → Option Sudoku
  | 0, _ => none
  | fuel + 1, s =>
    match find_empty_cell s with
    | none => some s
    | some p =>
      let avail := available_values_in_cell s p.1 p.2
      if avail = 0 then none
      else tryValues (step2F fuel) s p.1 p.2 avail valList

/-- `step2` of the C source, at fuel 82 (always sufficient since each
recursive call fills one empty cell and at most 81 cells are empty). -/
def step2 (s : Sudoku) : Option Sudoku := step2F 82 s

/-- The solver chain of `main` (lines 409-417): run `step1`; on failure run
`step2` on the grid that `step1` left behind; report overall success. -/
def main_solve (s : Sudoku) : Bool :=
  let r := step1 s
  if r.1 then true else (step2 r.2).isSome

/-- The trial loop of `step2` in the state-passing reading: the caller's
grid is only read; every write goes to the fresh copy `fill_cell s r c v`. -/
def tryValuesSt (step : Sudoku → Bool × Sudoku) (s : Sudoku) (r c : Fin 9)
    (avail : Nat) : List Nat → Bool
  | [] => false
  | v :: vs =>
    if avail &&& BIT_FOR_VALUE v ≠ 0 then
      if (step (fill_cell s r c v)).1 then true
      else tryValuesSt step s r c avail vs
    else tryValuesSt step s r c avail vs

/-- State-passing embedding of `step2`: the C function receives a
`const Sudoku *`; this version threads the pointed-to grid through the call
and returns it next to the C return value, making the frame property
(no mutation of the argument) a statable fact. -/
def step2FSt : Nat → Sudoku → Bool × Sudoku
  | 0, s => (false, s)
  | fuel + 1, s =>
    match find_empty_cell s with
    | none => (true, s)
    | some p =>
      let avail := available_values_in_cell s p.1 p.2
      if avail = 0 then (false, s)
      else (tryValuesSt (step2FSt fuel) s p.1 p.2 avail valList, s)

/-- `step2` in the state-passing reading, at fuel 82. -/
def step2St (s : Sudoku) : Bool × Sudoku := step2FSt 82 s

/-- Reset every row, column and square mask to `0x1FF` (all nine digits
available): the first half of `init_sudoku`. -/
def resetMasks (s : Sudoku) : Sudoku :=
  { s with row := fun _ => 0x1FF, col := fun _ => 0x1FF, sqr := fun _ => 0x1FF }

/-- One iteration of the second loop nest of `init_sudoku`: skip an empty
cell, otherwise clear the bit of its value in its three masks. -/
def initStep (t : Sudoku) (p : Fin 9 × Fin 9) : Sudoku :=
  if t.cell p = 0 then t
  else
    { t with
      row := Function.update t.row p.1 (clearBit (t.row p.1) (t.cell p))
      col := Function.update t.col p.2 (clearBit (t.col p.2) (t.cell p))
      sqr := Function.update t.sqr (sqIdx p) (clearBit (t.sqr (sqIdx p)) (t.cell p)) }

/-- `init_sudoku`: mark all masks as all-available, then scan every filled
cell in row-major order and clear the corresponding bits. -/
def init_sudoku (s : Sudoku) : Sudoku := cellList.foldl initStep (resetMasks s)

/-! ## Specification-level predicates (duplicate-freeness, solutions) -/

/-- Two cells lie in a common unit: same row, same column or same square. -/
def sameUnit (p q : Fin 9 × Fin 9) : Prop :=
  p.1 = q.1 ∨ p.2 = q.2 ∨ sqIdx p = sqIdx q

instance : ∀ p q, Decidable (sameUnit p q) := fun _ _ => by
  unfold sameUnit; infer_instance

/-- Digit `v` can legally be placed at `p`: it occurs nowhere in the row,
column or square of `p`. -/
def legal (f : Cells) (p : Fin 9 × Fin 9) (v : Nat) : Prop :=
  ∀ q, sameUnit p q → f q ≠ v

instance : ∀ f p v, Decidable (legal f p v) := fun _ _ _ => by
  unfold legal; infer_instance

/-- All cell values lie in `[0, 9]`. -/
def rangeOK (f : Cells) : Prop := ∀ p, f p ≤ 9

instance : ∀ f, Decidable (rangeOK f) := fun _ => by
  unfold rangeOK; infer_instance

/-- The nonzero entries contain no duplicate within any row, column or
square. -/
def noDups (f : Cells) : Prop :=
  ∀ p q, p ≠ q → sameUnit p q → f p ≠ 0 → f p ≠ f q

instance : ∀ f, Decidable (noDups f) := fun _ => by
  unfold noDups; infer_instance

/-- `g` is a valid completion of the partial grid `f`: fully filled with
digits 1-9, no two cells of a common unit agree, and every nonzero cell of
`f` keeps its value. -/
def completes (f g : Cells) : Prop :=
  (∀ p, 1 ≤ g p ∧ g p ≤ 9) ∧
  (∀ p q, p ≠ q → sameUnit p q → g p ≠ g q) ∧
  (∀ p, f p ≠ 0 → g p = f p)

instance : ∀ f g, Decidable (completes f g) := fun _ _ => by
  unfold completes; infer_instance

/-- Semantic reading of the three mask families: for each digit `1..9`,
the bit of a row/column/square mask is set exactly when the digit occurs
nowhere in that row/column/square. -/
def MaskInv (s : Sudoku) : Prop :=
  (∀ r : Fin 9, ∀ v : Nat, 1 ≤ v → v ≤ 9 →
    (((s.row r).testBit (v - 1) = true) ↔ ∀ c : Fin 9, s.cell (r, c) ≠ v)) ∧
  (∀ c : Fin 9, ∀ v : Nat, 1 ≤ v → v ≤ 9 →
    (((s.col c).testBit (v - 1) = true) ↔ ∀ r : Fin 9, s.cell (r, c) ≠ v)) ∧
  (∀ q : Fin 3 × Fin 3, ∀ v : Nat, 1 ≤ v → v ≤ 9 →
    (((s.sqr q).testBit (v - 1) = true) ↔ ∀ p, sqIdx p = q → s.cell p ≠ v))

/-- The mask/cell consistency invariant in the words of the specification:
(a) the bit of every filled cell's value is absent from its three masks;
(b) for every empty cell the AND of its three masks holds exactly the
digits that occur nowhere in its row, column or square. -/
def specInv (s : Sudoku) : Prop :=
  (∀ p : Fin 9 × Fin 9, s.cell p ≠ 0 →
    ((s.row p.1).testBit (s.cell p - 1) = false ∧
     (s.col p.2).testBit (s.cell p - 1) = false ∧
     (s.sqr (sqIdx p)).testBit (s.cell p - 1) = false)) ∧
  (∀ p : Fin 9 × Fin 9, s.cell p = 0 →
    ∀ v : Nat, v < 10 → 1 ≤ v →
      (((available_values_in_cell s p.1 p.2).testBit (v - 1) = true) ↔
        legal s.cell p v))

instance : ∀ s, Decidable (specInv s) := fun _ => by
  unfold specInv; infer_instance

/-- The combined invariant carried through both solvers: semantically
correct masks, duplicate-free cells, cell values in `[0, 9]`. -/
def Good (s : Sudoku) : Prop := MaskInv s ∧ noDups s.cell ∧ rangeOK s.cell

/-- The cells of row `r`, indexed by column. -/
def rowEmb (r : Fin 9) : Fin 9 → Fin 9 × Fin 9 := fun c => (r, c)

/-- The cells of column `c`, indexed by row. -/
def colEmb (c : Fin 9) : Fin 9 → Fin 9 × Fin 9 := fun r => (r, c)

/-- The cells of the 3x3 square `q`, indexed in row-major order. -/
def boxEmb (q : Fin 3 × Fin 3) : Fin 9 → Fin 9 × Fin 9 :=
  fun i => (⟨3 * q.1.val + i.val / 3, by have := q.1.2; have := i.2; omega⟩,
            ⟨3 * q.2.val + i.val % 3, by have := q.2.2; have := i.2; omega⟩)

/-! ## Concrete grids used as witnesses -/

/-- A complete valid solution grid (the cyclic pattern
`(3 * (r % 3) + r / 3 + c) % 9 + 1`). -/
def solvedCells : Cells :=
  fun p => (3 * (p.1.val % 3) + p.1.val / 3 + p.2.val) % 9 + 1

/-- Wrap a cell array into a `Sudoku` with zeroed (not yet initialized)
masks, as after `load_sudoku` fills `cell` and before `init_sudoku`. -/
def withCells (f : Cells) : Sudoku :=
  { row := fun _ => 0, col := fun _ => 0, sqr := fun _ => 0, cell := f }

/-- `solvedCells` with the single cell (0,0) emptied. -/
def oneHoleCells : Cells :=
  fun p => if p.1.val = 0 ∧ p.2.val = 0 then 0 else solvedCells p

/-- An initialized grid with exactly one empty cell, whose forced value
is 1. -/
def GOne : Sudoku := init_sudoku (withCells oneHoleCells)

/-- The grid `GOne` after its single empty cell (0,0) is filled with 1:
the grid that `step2` finds and prints. -/
def GOneFilled : Sudoku := fill_cell GOne 0 0 1

/-- Cells: row 0 holds `1..8` and an empty cell, all other rows empty. -/
def topRowCells : Cells :=
  fun p => if p.1.val = 0 ∧ p.2.val ≤ 7 then p.2.val + 1 else 0

/-- An initialized grid on which `step1` commits one forced fill
(cell (0,8) gets 9) and then gets stuck. -/
def GRow : Sudoku := init_sudoku (withCells topRowCells)

/-- An initialized grid whose only filled cell is (0,0) = 1; used to show
that `fill_cell` on a non-empty cell breaks the mask invariant. -/
def GCorner : Sudoku :=
  init_sudoku (withCells (fun p => if p.1.val = 0 ∧ p.2.val = 0 then 1 else 0))

/-! ## List scanning infrastructure -/

theorem ascList_mem : ∀ (n k j : Nat), j ∈ ascList k n ↔ k ≤ j ∧ j < k + n := by
  intro n
  induction n with
  | zero => intro k j; simp [ascList]
  | succ n ih => intro k j; simp [ascList, ih (k + 1)]; omega

theorem find?_ascList_eq_some {pr : Nat → Bool} :
    ∀ n k j, (ascList k n).find? pr = some j →
      pr j = true ∧ k ≤ j ∧ j < k + n ∧ ∀ i, k ≤ i → i < j → pr i = false := by
  intro n
  induction n with
  | zero => intro k j h; simp [ascList] at h
  | succ n ih =>
    intro k j h
    by_cases hk : pr k
    · rw [ascList, List.find?_cons_of_pos _ hk] at h
      cases h
      exact ⟨hk, Nat.le_refl k, by omega, fun i h1 h2 => absurd h2 (by omega)⟩
    · rw [ascList, List.find?_cons_of_neg _ hk] at h
      obtain ⟨h1, h2, h3, h4⟩ := ih (k + 1) j h
      simp only [Bool.not_eq_true] at hk
      refine ⟨h1, by omega, by omega, fun i hi1 hi2 => ?_⟩
      by_cases hik : i = k
      · exact hik ▸ hk
      · exact h4 i (by omega) hi2

theorem find?_ascList_eq_none {pr : Nat → Bool} {n k : Nat}
    (h : (ascList k n).find? pr = none) :
    ∀ j, k ≤ j → j < k + n → pr j = false := by
  intro j h1 h2
  have := List.find?_eq_none.mp h j ((ascList_mem n k j).mpr ⟨h1, h2⟩)
  simpa using this

/-! ## Cell indexing -/

theorem rmIdx_lt (p : Fin 9 × Fin 9) : rmIdx p < 81 := by
  have h1 := p.1.2
  have h2 := p.2.2
  unfold rmIdx
  omega

theorem cellOf_rmIdx (p : Fin 9 × Fin 9) : cellOf (rmIdx p) = p := by
  have h1 := p.1.2
  have h2 := p.2.2
  unfold cellOf rmIdx
  refine Prod.ext (Fin.ext ?_) (Fin.ext ?_) <;> simp <;> omega

theorem rmIdx_cellOf {n : Nat} (h : n < 81) : rmIdx (cellOf n) = n := by
  unfold cellOf rmIdx
  simp
  omega

theorem forall_cells_iff {P : (Fin 9 × Fin 9) → Prop} :
    (∀ n, n < 81 → P (cellOf n)) ↔ ∀ p, P p := by
  constructor
  · intro h p
    have := h (rmIdx p) (rmIdx_lt p)
    rwa [cellOf_rmIdx] at this
  · intro h n _
    exact h _

/-! ## `find_empty_cell` -/

theorem find_empty_cell_eq_none {s : Sudoku} (h : find_empty_cell s = none) :
    ∀ p, s.cell p ≠ 0 := by
  unfold find_empty_cell at h
  rcases hf : (ascList 0 81).find? (fun n => decide (s.cell (cellOf n) = 0)) with _ | n
  · intro p
    have := find?_ascList_eq_none hf (rmIdx p) (Nat.zero_le _) (by simpa using rmIdx_lt p)
    rw [cellOf_rmIdx] at this
    simpa using this
  · rw [hf] at h; simp at h

theorem find_empty_cell_eq_some {s : Sudoku} {p : Fin 9 × Fin 9}
    (h : find_empty_cell s = some p) :
    s.cell p = 0 ∧ ∀ q, rmIdx q < rmIdx p → s.cell q ≠ 0 := by
  unfold find_empty_cell at h
  rcases hf : (ascList 0 81).find? (fun n => decide (s.cell (cellOf n) = 0)) with _ | n
  · rw [hf] at h; simp at h
  · rw [hf] at h
    simp only [Option.map_some'] at h
    obtain ⟨h1, _, h3, h4⟩ := find?_ascList_eq_some 81 0 n hf
    cases h
    constructor
    · simpa using h1
    · intro q hq
      have hn : rmIdx (cellOf n) = n := rmIdx_cellOf (by omega)
      have := h4 (rmIdx q) (Nat.zero_le _) (by omega)
      rw [cellOf_rmIdx] at this
      simpa using this

/-! ## Bit manipulation -/

theorem BIT_FOR_VALUE_eq (v : Nat) : BIT_FOR_VALUE v = 2 ^ (v - 1) := by
  unfold BIT_FOR_VALUE
  exact Nat.one_shiftLeft _

theorem testBit_clearBit (m v k : Nat) (hv1 : 1 ≤ v) (hv2 : v ≤ 16) :
    (clearBit m v).testBit k =
      (m.testBit k && (decide (k < 16) && !decide (v = k + 1))) := by
  unfold clearBit
  rw [BIT_FOR_VALUE_eq]
  have h16 : (0xFFFF : Nat) = 2 ^ 16 - 1 := by norm_num
  rw [Nat.testBit_and, Nat.testBit_xor, h16, Nat.testBit_two_pow_sub_one,
    Nat.testBit_two_pow]
  rcases Nat.lt_or_ge k 16 with hk | hk
  · by_cases hvk : v = k + 1
    · have : v - 1 = k := by omega
      simp [this, hvk, hk]
    · have : v - 1 ≠ k := by omega
      simp [this, hvk, hk]
  · have h1 : ¬ k < 16 := by omega
    have h2 : v - 1 ≠ k := by omega
    simp [h1, h2]

theorem testBit_and_two_pow_ne_zero {m k : Nat} :
    m &&& 2 ^ k ≠ 0 ↔ m.testBit k = true := by
  constructor
  · intro h
    by_contra hb
    simp only [Bool.not_eq_true] at hb
    refine h (Nat.eq_of_testBit_eq fun i => ?_)
    rw [Nat.testBit_and, Nat.testBit_two_pow, Nat.zero_testBit]
    by_cases hik : k = i
    · subst hik; simp [hb]
    · simp [hik]
  · intro h h0
    have := congrArg (fun n => n.testBit k) h0
    simp [Nat.testBit_and, Nat.testBit_two_pow, h] at this

theorem avail_and_bit_ne_zero {m v : Nat} :
    m &&& BIT_FOR_VALUE v ≠ 0 ↔ m.testBit (v - 1) = true := by
  rw [BIT_FOR_VALUE_eq]
  exact testBit_and_two_pow_ne_zero

theorem testBit_ne_zero {m k : Nat} (h : m.testBit k = true) : m ≠ 0 := by
  rintro rfl
  simp at h

/-! ## `fill_cell` basics -/

theorem fill_cell_cell (s : Sudoku) (r c : Fin 9) (v : Nat) :
    (fill_cell s r c v).cell = Function.update s.cell (r, c) v := rfl

theorem numEmpty_fill_cell {s : Sudoku} {p : Fin 9 × Fin 9} {v : Nat}
    (hp : s.cell p = 0) (hv : v ≠ 0) :
    numEmpty (fill_cell s p.1 p.2 v) = numEmpty s - 1 ∧ 0 < numEmpty s := by
  have hmem : p ∈ Finset.univ.filter fun q : Fin 9 × Fin 9 => s.cell q = 0 := by
    simp [hp]
  have hset : (Finset.univ.filter fun q : Fin 9 × Fin 9 =>
      (fill_cell s p.1 p.2 v).cell q = 0) =
      (Finset.univ.filter fun q : Fin 9 × Fin 9 => s.cell q = 0).erase p := by
    ext q
    simp only [Finset.mem_filter, Finset.mem_univ, true_and, Finset.mem_erase,
      fill_cell_cell]
    by_cases hq : q = p
    · subst hq
      simp [Function.update_same, hv]
    · rw [Function.update_noteq (by simpa using hq)]
      tauto
  constructor
  · unfold numEmpty
    rw [hset, Finset.card_erase_of_mem hmem]
  · exact Finset.card_pos.mpr ⟨p, hmem⟩

theorem numEmpty_le_81 (s : Sudoku) : numEmpty s ≤ 81 := by
  unfold numEmpty
  calc (Finset.univ.filter fun p : Fin 9 × Fin 9 => s.cell p = 0).card
      ≤ (Finset.univ : Finset (Fin 9 × Fin 9)).card := Finset.card_filter_le _ _
    _ = 81 := by simp

theorem numEmpty_eq_zero {s : Sudoku} :
    numEmpty s = 0 ↔ ∀ p, s.cell p ≠ 0 := by
  unfold numEmpty
  rw [Finset.card_eq_zero, Finset.filter_eq_empty_iff]
  simp

/-! ## `init_sudoku`: the masks it builds are the semantic masks -/

theorem mem_cellList (p : Fin 9 × Fin 9) : p ∈ cellList := by
  unfold cellList
  refine List.mem_map.mpr ⟨rmIdx p, ?_, cellOf_rmIdx p⟩
  exact (ascList_mem 81 0 (rmIdx p)).mpr ⟨Nat.zero_le _, by simpa using rmIdx_lt p⟩

theorem mem_cellList_elim {P : (Fin 9 × Fin 9) → Prop} :
    (∀ p ∈ cellList, P p) ↔ ∀ p, P p :=
  ⟨fun h p => h p (mem_cellList p), fun h p _ => h p⟩

theorem initStep_cell (t : Sudoku) (p : Fin 9 × Fin 9) :
    (initStep t p).cell = t.cell := by
  unfold initStep
  split <;> rfl

theorem foldl_initStep_cell :
    ∀ (l : List (Fin 9 × Fin 9)) (t : Sudoku), (l.foldl initStep t).cell = t.cell := by
  intro l
  induction l with
  | nil => intro t; rfl
  | cons p l ih => intro t; rw [List.foldl_cons, ih, initStep_cell]

theorem init_sudoku_cell (s : Sudoku) : (init_sudoku s).cell = s.cell := by
  unfold init_sudoku
  rw [foldl_initStep_cell]
  rfl

theorem initStep_row (t : Sudoku) (p : Fin 9 × Fin 9) (r : Fin 9) {k : Nat}
    (hk : k < 16) (hr : rangeOK t.cell) :
    ((initStep t p).row r).testBit k =
      ((t.row r).testBit k && !(decide (p.1 = r) && decide (t.cell p = k + 1))) := by
  unfold initStep
  by_cases h0 : t.cell p = 0
  · have : t.cell p ≠ k + 1 := by omega
    simp [h0, this]
  · simp only [h0, if_false]
    by_cases hpr : p.1 = r
    · subst hpr
      simp only [Function.update_same]
      rw [testBit_clearBit _ _ _ (by omega) (le_trans (hr p) (by norm_num))]
      simp [hk]
    · rw [Function.update_noteq (Ne.symm hpr)]
      simp [hpr]

theorem foldl_initStep_row :
    ∀ (l : List (Fin 9 × Fin 9)) (t : Sudoku) (r : Fin 9) (k : Nat), k < 16 →
      rangeOK t.cell →
      ((l.foldl initStep t).row r).testBit k =
        ((t.row r).testBit k &&
          l.all fun p => !(decide (p.1 = r) && decide (t.cell p = k + 1))) := by
  intro l
  induction l with
  | nil => intro t r k _ _; simp
  | cons p l ih =>
    intro t r k hk hr
    rw [List.foldl_cons, ih (initStep t p) r k hk (by rwa [initStep_cell]),
      initStep_row t p r hk hr]
    simp only [initStep_cell, List.all_cons]
    rw [Bool.and_assoc]

theorem initStep_col (t : Sudoku) (p : Fin 9 × Fin 9) (c : Fin 9) {k : Nat}
    (hk : k < 16) (hr : rangeOK t.cell) :
    ((initStep t p).col c).testBit k =
      ((t.col c).testBit k && !(decide (p.2 = c) && decide (t.cell p = k + 1))) := by
  unfold initStep
  by_cases h0 : t.cell p = 0
  · have : t.cell p ≠ k + 1 := by omega
    simp [h0, this]
  · simp only [h0, if_false]
    by_cases hpc : p.2 = c
    · subst hpc
      simp only [Function.update_same]
      rw [testBit_clearBit _ _ _ (by omega) (le_trans (hr p) (by norm_num))]
      simp [hk]
    · rw [Function.update_noteq (Ne.symm hpc)]
      simp [hpc]

theorem foldl_initStep_col :
    ∀ (l : List (Fin 9 × Fin 9)) (t : Sudoku) (c : Fin 9) (k : Nat), k < 16 →
      rangeOK t.cell →
      ((l.foldl initStep t).col c).testBit k =
        ((t.col c).testBit k &&
          l.all fun p => !(decide (p.2 = c) && decide (t.cell p = k + 1))) := by
  intro l
  induction l with
  | nil => intro t c k _ _; simp
  | cons p l ih =>
    intro t c k hk hr
    rw [List.foldl_cons, ih (initStep t p) c k hk (by rwa [initStep_cell]),
      initStep_col t p c hk hr]
    simp only [initStep_cell, List.all_cons]
    rw [Bool.and_assoc]

theorem initStep_sqr (t : Sudoku) (p : Fin 9 × Fin 9) (q : Fin 3 × Fin 3) {k : Nat}
    (hk : k < 16) (hr : rangeOK t.cell) :
    ((initStep t p).sqr q).testBit k =
      ((t.sqr q).testBit k && !(decide (sqIdx p = q) && decide (t.cell p = k + 1))) := by
  unfold initStep
  by_cases h0 : t.cell p = 0
  · have : t.cell p ≠ k + 1 := by omega
    simp [h0, this]
  · simp only [h0, if_false]
    by_cases hpq : sqIdx p = q
    · subst hpq
      simp only [Function.update_same]
      rw [testBit_clearBit _ _ _ (by omega) (le_trans (hr p) (by norm_num))]
      simp [hk]
    · rw [Function.update_noteq (Ne.symm hpq)]
      simp [hpq]

theorem foldl_initStep_sqr :
    ∀ (l : List (Fin 9 × Fin 9)) (t : Sudoku) (q : Fin 3 × Fin 3) (k : Nat), k < 16 →
      rangeOK t.cell →
      ((l.foldl initStep t).sqr q).testBit k =
        ((t.sqr q).testBit k &&
          l.all fun p => !(decide (sqIdx p = q) && decide (t.cell p = k + 1))) := by
  intro l
  induction l with
  | nil => intro t q k _ _; simp
  | cons p l ih =>
    intro t q k hk hr
    rw [List.foldl_cons, ih (initStep t p) q k hk (by rwa [initStep_cell]),
      initStep_sqr t p q hk hr]
    simp only [initStep_cell, List.all_cons]
    rw [Bool.and_assoc]

theorem testBit_1FF {k : Nat} (hk : k < 9) : (0x1FF : Nat).testBit k = true := by
  have h : (0x1FF : Nat) = 2 ^ 9 - 1 := by norm_num
  rw [h, Nat.testBit_two_pow_sub_one]
  simpa using hk

theorem MaskInv_init_row (s : Sudoku) (hr : rangeOK s.cell) (r : Fin 9) (v : Nat)
    (hv1 : 1 ≤ v) (hv9 : v ≤ 9) :
    (((init_sudoku s).row r).testBit (v - 1) = true) ↔ ∀ c : Fin 9, s.cell (r, c) ≠ v := by
  have hrc : rangeOK (resetMasks s).cell := hr
  rw [show (init_sudoku s).row = (cellList.foldl initStep (resetMasks s)).row from rfl,
    foldl_initStep_row cellList (resetMasks s) r (v - 1) (by omega) hrc]
  rw [show (resetMasks s).row r = 0x1FF from rfl, testBit_1FF (by omega)]
  rw [show v - 1 + 1 = v from by omega]
  simp only [Bool.true_and, List.all_eq_true]
  rw [show (resetMasks s).cell = s.cell from rfl]
  constructor
  · intro h c
    have := h (r, c) (mem_cellList _)
    simpa using this
  · intro h p _
    simp only [Bool.not_eq_true', Bool.and_eq_false_iff, decide_eq_false_iff_not]
    by_cases hp : p.1 = r
    · right
      intro hv
      exact h p.2 (by rw [← hv]; congr 1; exact Prod.ext hp.symm rfl)
    · left; exact hp

theorem MaskInv_init_col (s : Sudoku) (hr : rangeOK s.cell) (c : Fin 9) (v : Nat)
    (hv1 : 1 ≤ v) (hv9 : v ≤ 9) :
    (((init_sudoku s).col c).testBit (v - 1) = true) ↔ ∀ r : Fin 9, s.cell (r, c) ≠ v := by
  have hrc : rangeOK (resetMasks s).cell := hr
  rw [show (init_sudoku s).col = (cellList.foldl initStep (resetMasks s)).col from rfl,
    foldl_initStep_col cellList (resetMasks s) c (v - 1) (by omega) hrc]
  rw [show (resetMasks s).col c = 0x1FF from rfl, testBit_1FF (by omega)]
  rw [show v - 1 + 1 = v from by omega]
  simp only [Bool.true_and, List.all_eq_true]
  rw [show (resetMasks s).cell = s.cell from rfl]
  constructor
  · intro h r
    have := h (r, c) (mem_cellList _)
    simpa using this
  · intro h p _
    simp only [Bool.not_eq_true', Bool.and_eq_false_iff, decide_eq_false_iff_not]
    by_cases hp : p.2 = c
    · right
      intro hv
      exact h p.1 (by rw [← hv]; congr 1; exact Prod.ext rfl hp.symm)
    · left; exact hp

theorem MaskInv_init_sqr (s : Sudoku) (hr : rangeOK s.cell) (q : Fin 3 × Fin 3) (v : Nat)
    (hv1 : 1 ≤ v) (hv9 : v ≤ 9) :
    (((init_sudoku s).sqr q).testBit (v - 1) = true) ↔
      ∀ p, sqIdx p = q → s.cell p ≠ v := by
  have hrc : rangeOK (resetMasks s).cell := hr
  rw [show (init_sudoku s).sqr = (cellList.foldl initStep (resetMasks s)).sqr from rfl,
    foldl_initStep_sqr cellList (resetMasks s) q (v - 1) (by omega) hrc]
  rw [show (resetMasks s).sqr q = 0x1FF from rfl, testBit_1FF (by omega)]
  rw [show v - 1 + 1 = v from by omega]
  simp only [Bool.true_and, List.all_eq_true]
  rw [show (resetMasks s).cell = s.cell from rfl]
  constructor
  · intro h p hpq
    have := h p (mem_cellList _)
    simp only [Bool.not_eq_true', Bool.and_eq_false_iff, decide_eq_false_iff_not] at this
    rcases this with h1 | h2
    · exact absurd hpq h1
    · exact h2
  · intro h p _
    simp only [Bool.not_eq_true', Bool.and_eq_false_iff, decide_eq_false_iff_not]
    by_cases hp : sqIdx p = q
    · right; exact h p hp
    · left; exact hp

theorem MaskInv_init (s : Sudoku) (hr : rangeOK s.cell) : MaskInv (init_sudoku s) := by
  have hcell := init_sudoku_cell s
  refine ⟨fun r v hv1 hv9 => ?_, fun c v hv1 hv9 => ?_, fun q v hv1 hv9 => ?_⟩
  · rw [hcell]; exact MaskInv_init_row s hr r v hv1 hv9
  · rw [hcell]; exact MaskInv_init_col s hr c v hv1 hv9
  · rw [hcell]; exact MaskInv_init_sqr s hr q v hv1 hv9

/-! ## The candidate set of an empty cell is the set of legal digits -/

theorem sameUnit_symm {p q : Fin 9 × Fin 9} (h : sameUnit p q) : sameUnit q p := by
  unfold sameUnit at h ⊢
  rcases h with h | h | h
  · exact Or.inl h.symm
  · exact Or.inr (Or.inl h.symm)
  · exact Or.inr (Or.inr h.symm)

theorem avail_testBit {s : Sudoku} (hM : MaskInv s) (p : Fin 9 × Fin 9) (v : Nat)
    (hv1 : 1 ≤ v) (hv9 : v ≤ 9) :
    ((available_values_in_cell s p.1 p.2).testBit (v - 1) = true) ↔ legal s.cell p v := by
  obtain ⟨hrow, hcol, hsqr⟩ := hM
  unfold available_values_in_cell
  rw [show ((p.1, p.2) : Fin 9 × Fin 9) = p from rfl]
  rw [Nat.testBit_and, Nat.testBit_and]
  simp only [Bool.and_eq_true]
  constructor
  · rintro ⟨⟨h1, h2⟩, h3⟩ q hq
    rcases hq with hq | hq | hq
    · have := (hrow p.1 v hv1 hv9).mp h1 q.2
      rwa [show ((p.1, q.2) : Fin 9 × Fin 9) = q from by rw [hq]] at this
    · have := (hcol p.2 v hv1 hv9).mp h2 q.1
      rwa [show ((q.1, p.2) : Fin 9 × Fin 9) = q from by rw [hq]] at this
    · exact (hsqr (sqIdx p) v hv1 hv9).mp h3 q hq.symm
  · intro h
    refine ⟨⟨?_, ?_⟩, ?_⟩
    · exact (hrow p.1 v hv1 hv9).mpr fun c => h (p.1, c) (Or.inl rfl)
    · exact (hcol p.2 v hv1 hv9).mpr fun r => h (r, p.2) (Or.inr (Or.inl rfl))
    · exact (hsqr (sqIdx p) v hv1 hv9).mpr fun q hq => h q (Or.inr (Or.inr hq.symm))

/-! ## `fill_cell` at an empty cell preserves the invariants -/

theorem fill_cell_apply (s : Sudoku) (p q : Fin 9 × Fin 9) (v : Nat) :
    (fill_cell s p.1 p.2 v).cell q = if q = p then v else s.cell q :=
  Function.update_apply s.cell p v q

theorem fill_row_apply (s : Sudoku) (p : Fin 9 × Fin 9) (v : Nat) (r : Fin 9) :
    (fill_cell s p.1 p.2 v).row r = if r = p.1 then clearBit (s.row p.1) v else s.row r :=
  Function.update_apply s.row p.1 (clearBit (s.row p.1) v) r

theorem fill_col_apply (s : Sudoku) (p : Fin 9 × Fin 9) (v : Nat) (c : Fin 9) :
    (fill_cell s p.1 p.2 v).col c = if c = p.2 then clearBit (s.col p.2) v else s.col c :=
  Function.update_apply s.col p.2 (clearBit (s.col p.2) v) c

theorem fill_sqr_apply (s : Sudoku) (p : Fin 9 × Fin 9) (v : Nat) (q : Fin 3 × Fin 3) :
    (fill_cell s p.1 p.2 v).sqr q =
      if q = sqIdx p then clearBit (s.sqr (sqIdx p)) v else s.sqr q :=
  Function.update_apply s.sqr (sqIdx p) (clearBit (s.sqr (sqIdx p)) v) q

theorem testBit_clearBit_iff {m v w : Nat} (hv1 : 1 ≤ v) (hv16 : v ≤ 16)
    (hw1 : 1 ≤ w) (hw16 : w ≤ 16) :
    ((clearBit m v).testBit (w - 1) = true) ↔ (m.testBit (w - 1) = true ∧ v ≠ w) := by
  rw [testBit_clearBit _ _ _ hv1 hv16]
  rw [show w - 1 + 1 = w from by omega]
  have h16 : w - 1 < 16 := by omega
  simp [h16]

theorem MaskInv_fill {s : Sudoku} (hM : MaskInv s) {p : Fin 9 × Fin 9} {v : Nat}
    (hp : s.cell p = 0) (hv1 : 1 ≤ v) (hv9 : v ≤ 9) :
    MaskInv (fill_cell s p.1 p.2 v) := by
  obtain ⟨hrow, hcol, hsqr⟩ := hM
  refine ⟨fun r w hw1 hw9 => ?_, fun c w hw1 hw9 => ?_, fun q w hw1 hw9 => ?_⟩
  · rw [fill_row_apply]
    by_cases hrp : r = p.1
    · subst hrp
      rw [if_pos rfl, testBit_clearBit_iff hv1 (by omega) hw1 (by omega),
        hrow p.1 w hw1 hw9]
      constructor
      · rintro ⟨hall, hvw⟩ c
        rw [fill_cell_apply]
        split
        · exact hvw
        · exact hall c
      · intro hall
        constructor
        · intro c
          have hc := hall c
          rw [fill_cell_apply] at hc
          by_cases hcq : ((p.1, c) : Fin 9 × Fin 9) = p
          · rw [hcq, hp]; omega
          · rwa [if_neg hcq] at hc
        · intro hvw
          have hc := hall p.2
          rw [fill_cell_apply, if_pos rfl] at hc
          exact hc hvw
    · rw [if_neg hrp, hrow r w hw1 hw9]
      constructor
      · intro hall c
        rw [fill_cell_apply, if_neg (fun hc => hrp (congrArg Prod.fst hc))]
        exact hall c
      · intro hall c
        have hc := hall c
        rwa [fill_cell_apply, if_neg (fun hc => hrp (congrArg Prod.fst hc))] at hc
  · rw [fill_col_apply]
    by_cases hcp : c = p.2
    · subst hcp
      rw [if_pos rfl, testBit_clearBit_iff hv1 (by omega) hw1 (by omega),
        hcol p.2 w hw1 hw9]
      constructor
      · rintro ⟨hall, hvw⟩ r
        rw [fill_cell_apply]
        split
        · exact hvw
        · exact hall r
      · intro hall
        constructor
        · intro r
          have hc := hall r
          rw [fill_cell_apply] at hc
          by_cases hcq : ((r, p.2) : Fin 9 × Fin 9) = p
          · rw [hcq, hp]; omega
          · rwa [if_neg hcq] at hc
        · intro hvw
          have hc := hall p.1
          rw [fill_cell_apply, if_pos rfl] at hc
          exact hc hvw
    · rw [if_neg hcp, hcol c w hw1 hw9]
      constructor
      · intro hall r
        rw [fill_cell_apply, if_neg (fun hc => hcp (congrArg Prod.snd hc))]
        exact hall r
      · intro hall r
        have hc := hall r
        rwa [fill_cell_apply, if_neg (fun hc => hcp (congrArg Prod.snd hc))] at hc
  · rw [fill_sqr_apply]
    by_cases hqp : q = sqIdx p
    · subst hqp
      rw [if_pos rfl, testBit_clearBit_iff hv1 (by omega) hw1 (by omega),
        hsqr (sqIdx p) w hw1 hw9]
      constructor
      · rintro ⟨hall, hvw⟩ x hx
        rw [fill_cell_apply]
        split
        · exact hvw
        · exact hall x hx
      · intro hall
        constructor
        · intro x hx
          have hc := hall x hx
          rw [fill_cell_apply] at hc
          by_cases hcq : x = p
          · rw [hcq, hp]; omega
          · rwa [if_neg hcq] at hc
        · intro hvw
          have hc := hall p rfl
          rw [fill_cell_apply, if_pos rfl] at hc
          exact hc hvw
    · rw [if_neg hqp, hsqr q w hw1 hw9]
      constructor
      · intro hall x hx
        rw [fill_cell_apply, if_neg (fun hc => hqp (by rw [← hx, hc]))]
        exact hall x hx
      · intro hall x hx
        have hc := hall x hx
        rwa [fill_cell_apply, if_neg (fun hc => hqp (by rw [← hx, hc]))] at hc

theorem noDups_fill {f : Cells} (hd : noDups f) {p : Fin 9 × Fin 9} {v : Nat}
    (hl : legal f p v) :
    noDups (Function.update f p v) := by
  intro a b hab hsu ha
  rw [Function.update_apply] at ha ⊢
  rw [Function.update_apply]
  by_cases hap : a = p
  · rw [if_pos hap] at ha ⊢
    have hbp : b ≠ p := fun h => hab (by rw [hap, h])
    rw [if_neg hbp]
    intro hfb
    have hsu' : sameUnit p b := by rw [← hap]; exact hsu
    exact hl b hsu' hfb.symm
  · rw [if_neg hap] at ha ⊢
    by_cases hbp : b = p
    · rw [if_pos hbp]
      have hsu' : sameUnit p a := sameUnit_symm (by rw [← hbp]; exact hsu)
      exact hl a hsu'
    · rw [if_neg hbp]
      exact hd a b hab hsu ha

theorem rangeOK_fill {f : Cells} (hr : rangeOK f) {p : Fin 9 × Fin 9} {v : Nat}
    (hv : v ≤ 9) : rangeOK (Function.update f p v) := by
  intro q
  rw [Function.update_apply]
  split
  · exact hv
  · exact hr q

theorem Good_fill {s : Sudoku} (hG : Good s) {p : Fin 9 × Fin 9} {v : Nat}
    (hp : s.cell p = 0) (hv1 : 1 ≤ v) (hv9 : v ≤ 9) (hl : legal s.cell p v) :
    Good (fill_cell s p.1 p.2 v) := by
  obtain ⟨hM, hd, hr⟩ := hG
  refine ⟨MaskInv_fill hM hp hv1 hv9, ?_, ?_⟩
  · rw [fill_cell_cell]
    exact noDups_fill hd hl
  · rw [fill_cell_cell]
    exact rangeOK_fill hr hv9

/-! ## Completions -/

theorem legal_of_completes {f g : Cells} (hfg : completes f g) (p : Fin 9 × Fin 9)
    (hp : f p = 0) : legal f p (g p) := by
  intro q hq hfq
  have hne : p ≠ q := by
    intro h
    rw [← h, hp] at hfq
    have := (hfg.1 p).1
    omega
  have hgq : g q = f q := hfg.2.2 q (by rw [hfq]; have := (hfg.1 p).1; omega)
  exact hfg.2.1 p q hne hq (by rw [hgq, hfq])

theorem completes_fill {f g : Cells} (hfg : completes f g) {p : Fin 9 × Fin 9} {v : Nat}
    (hv : g p = v) : completes (Function.update f p v) g := by
  refine ⟨hfg.1, hfg.2.1, fun q hq => ?_⟩
  rw [Function.update_apply] at hq ⊢
  by_cases hqp : q = p
  · rw [if_pos hqp, hqp, hv]
  · rw [if_neg hqp] at hq ⊢
    exact hfg.2.2 q hq

theorem completes_of_fill {f g : Cells} {p : Fin 9 × Fin 9} {v : Nat}
    (hfg : completes (Function.update f p v) g) (hp : f p = 0) : completes f g := by
  refine ⟨hfg.1, hfg.2.1, fun q hq => ?_⟩
  have hqp : q ≠ p := fun h => hq (h ▸ hp)
  have := hfg.2.2 q (by rw [Function.update_apply, if_neg hqp]; exact hq)
  rwa [Function.update_apply, if_neg hqp] at this

/-! ## The `step2` trial loop -/

theorem mem_valList {v : Nat} : v ∈ valList ↔ 1 ≤ v ∧ v ≤ 9 := by
  unfold valList
  rw [ascList_mem]
  omega

theorem tryValues_congr {f g : Sudoku → Option Sudoku} {s : Sudoku} {r c : Fin 9}
    {m : Nat} :
    ∀ l : List Nat, (∀ v ∈ l, f (fill_cell s r c v) = g (fill_cell s r c v)) →
      tryValues f s r c m l = tryValues g s r c m l := by
  intro l
  induction l with
  | nil => intro _; rfl
  | cons v vs ih =>
    intro h
    unfold tryValues
    rw [h v (List.mem_cons_self v vs)]
    have hvs := ih fun w hw => h w (List.mem_cons_of_mem v hw)
    split
    · cases g (fill_cell s r c v) with
      | none => exact hvs
      | some x => rfl
    · exact hvs

theorem tryValues_eq_some {f : Sudoku → Option Sudoku} {s : Sudoku} {r c : Fin 9}
    {m : Nat} {g : Sudoku} :
    ∀ l, tryValues f s r c m l = some g →
      ∃ v ∈ l, m &&& BIT_FOR_VALUE v ≠ 0 ∧ f (fill_cell s r c v) = some g := by
  intro l
  induction l with
  | nil => intro h; simp [tryValues] at h
  | cons v vs ih =>
    intro h
    unfold tryValues at h
    by_cases hbit : m &&& BIT_FOR_VALUE v ≠ 0
    · rw [if_pos hbit] at h
      rcases hf : f (fill_cell s r c v) with _ | x
      · rw [hf] at h
        obtain ⟨w, hw1, hw2, hw3⟩ := ih h
        exact ⟨w, List.mem_cons_of_mem v hw1, hw2, hw3⟩
      · rw [hf] at h
        cases h
        exact ⟨v, List.mem_cons_self v vs, hbit, hf⟩
    · rw [if_neg hbit] at h
      obtain ⟨w, hw1, hw2, hw3⟩ := ih h
      exact ⟨w, List.mem_cons_of_mem v hw1, hw2, hw3⟩

theorem tryValues_isSome {f : Sudoku → Option Sudoku} {s : Sudoku} {r c : Fin 9}
    {m : Nat} {v : Nat} :
    ∀ l, v ∈ l → m &&& BIT_FOR_VALUE v ≠ 0 → (f (fill_cell s r c v)).isSome →
      (tryValues f s r c m l).isSome := by
  intro l
  induction l with
  | nil => intro h; simp at h
  | cons w ws ih =>
    intro hmem hbit hsome
    unfold tryValues
    rcases List.mem_cons.mp hmem with rfl | hmem2
    · rw [if_pos hbit]
      rcases hf : f (fill_cell s r c v) with _ | x
      · rw [hf] at hsome; simp at hsome
      · simp
    · split
      · rcases hf : f (fill_cell s r c w) with _ | x
        · exact ih hmem2 hbit hsome
        · simp
      · exact ih hmem2 hbit hsome

/-! ## Fuel congruence for `step2F` -/

theorem step2F_congr : ∀ f1 f2 (s : Sudoku), numEmpty s < f1 → numEmpty s < f2 →
    step2F f1 s = step2F f2 s := by
  intro f1
  induction f1 with
  | zero => intro f2 s h1 _; omega
  | succ f1 ih =>
    intro f2 s h1 h2
    cases f2 with
    | zero => omega
    | succ f2 =>
      show step2F (f1 + 1) s = step2F (f2 + 1) s
      unfold step2F
      rcases hfe : find_empty_cell s with _ | p
      · rfl
      · have hp0 := (find_empty_cell_eq_some hfe).1
        simp only
        by_cases hav : available_values_in_cell s p.1 p.2 = 0
        · rw [if_pos hav, if_pos hav]
        · rw [if_neg hav, if_neg hav]
          refine tryValues_congr valList fun v hv => ?_
          have hv19 := mem_valList.mp hv
          have hne := numEmpty_fill_cell hp0 (show v ≠ 0 by omega)
          exact ih f2 _ (by omega) (by omega)

/-! ## Soundness of `step2`: a returned grid is a valid completion -/

theorem step2F_sound : ∀ fuel (s g : Sudoku), Good s → step2F fuel s = some g →
    completes s.cell g.cell := by
  intro fuel
  induction fuel with
  | zero => intro s g _ h; simp [step2F] at h
  | succ fuel ih =>
    intro s g hG h
    unfold step2F at h
    rcases hfe : find_empty_cell s with _ | p
    · rw [hfe] at h
      simp only [Option.some.injEq] at h
      subst h
      refine ⟨fun p => ?_, fun p q hne hsu => ?_, fun p _ => rfl⟩
      · have h1 := find_empty_cell_eq_none hfe p
        have h2 := hG.2.2 p
        omega
      · exact hG.2.1 p q hne hsu (find_empty_cell_eq_none hfe p)
    · rw [hfe] at h
      simp only at h
      by_cases hav : available_values_in_cell s p.1 p.2 = 0
      · rw [if_pos hav] at h
        cases h
      · rw [if_neg hav] at h
        obtain ⟨v, hvmem, hvbit, hvrec⟩ := tryValues_eq_some valList h
        have hv19 := mem_valList.mp hvmem
        have hp0 := (find_empty_cell_eq_some hfe).1
        have hleg : legal s.cell p v :=
          (avail_testBit hG.1 p v hv19.1 hv19.2).mp (avail_and_bit_ne_zero.mp hvbit)
        have hG2 := Good_fill hG hp0 hv19.1 hv19.2 hleg
        have hcomp := ih _ g hG2 hvrec
        rw [fill_cell_cell] at hcomp
        exact completes_of_fill hcomp hp0

/-! ## Completeness of `step2`: a solvable grid is solved -/

theorem step2F_complete : ∀ fuel (s : Sudoku), numEmpty s < fuel → Good s →
    (∃ g : Cells, completes s.cell g) → (step2F fuel s).isSome := by
  intro fuel
  induction fuel with
  | zero => intro s h1 _ _; omega
  | succ fuel ih =>
    intro s hn hG hsol
    unfold step2F
    rcases hfe : find_empty_cell s with _ | p
    · simp
    · obtain ⟨g, hg⟩ := hsol
      have hp0 := (find_empty_cell_eq_some hfe).1
      have hg19 := hg.1 p
      have hleg : legal s.cell p (g p) := legal_of_completes hg p hp0
      have hbit : (available_values_in_cell s p.1 p.2).testBit (g p - 1) = true :=
        (avail_testBit hG.1 p (g p) hg19.1 hg19.2).mpr hleg
      have hav : available_values_in_cell s p.1 p.2 ≠ 0 := testBit_ne_zero hbit
      simp only
      rw [if_neg hav]
      have hne := numEmpty_fill_cell hp0 (show g p ≠ 0 by omega)
      refine tryValues_isSome valList (mem_valList.mpr ⟨hg19.1, hg19.2⟩)
        (avail_and_bit_ne_zero.mpr hbit) ?_
      refine ih _ (by omega) (Good_fill hG hp0 hg19.1 hg19.2 hleg) ⟨g, ?_⟩
      rw [fill_cell_cell]
      exact completes_fill hg rfl

/-! ## `only_possible_value`: nonzero exactly on one-bit masks -/

theorem only_possible_value_spec {m : Nat} (h : 0 < only_possible_value m) :
    1 ≤ only_possible_value m ∧ only_possible_value m ≤ 9 ∧
      m = 2 ^ (only_possible_value m - 1) := by
  unfold only_possible_value at h ⊢
  split_ifs at h ⊢ with h1 h2 h3 h4 h5 h6 h7 h8 h9
  · exact ⟨by norm_num, by norm_num, by rw [h1]; norm_num⟩
  · exact ⟨by norm_num, by norm_num, by rw [h2]; norm_num⟩
  · exact ⟨by norm_num, by norm_num, by rw [h3]; norm_num⟩
  · exact ⟨by norm_num, by norm_num, by rw [h4]; norm_num⟩
  · exact ⟨by norm_num, by norm_num, by rw [h5]; norm_num⟩
  · exact ⟨by norm_num, by norm_num, by rw [h6]; norm_num⟩
  · exact ⟨by norm_num, by norm_num, by rw [h7]; norm_num⟩
  · exact ⟨by norm_num, by norm_num, by rw [h8]; norm_num⟩
  · exact ⟨by norm_num, by norm_num, by rw [h9]; norm_num⟩
  · exact absurd h (by norm_num)

/-! ## `findForced`: the scan pass of `step1` -/

theorem findForced_eq_some {s : Sudoku} {p : Fin 9 × Fin 9} {v : Nat}
    (h : findForced s = some (p, v)) :
    s.cell p = 0 ∧ 0 < v ∧
      v = only_possible_value (available_values_in_cell s p.1 p.2) ∧
      ∀ q, rmIdx q < rmIdx p →
        ¬(s.cell q = 0 ∧
          0 < only_possible_value (available_values_in_cell s q.1 q.2)) := by
  unfold findForced at h
  rcases hf : (ascList 0 81).find? (fun n =>
      decide (s.cell (cellOf n) = 0) &&
      decide (0 < only_possible_value
        (available_values_in_cell s (cellOf n).1 (cellOf n).2))) with _ | n
  · rw [hf] at h; cases h
  · rw [hf] at h
    simp only [Option.some.injEq, Prod.mk.injEq] at h
    obtain ⟨hp, hv⟩ := h
    obtain ⟨h1, _, h3, h4⟩ := find?_ascList_eq_some 81 0 n hf
    simp only [Bool.and_eq_true, decide_eq_true_eq] at h1
    subst hp
    subst hv
    refine ⟨h1.1, h1.2, rfl, fun q hq => ?_⟩
    have hn : rmIdx (cellOf n) = n := rmIdx_cellOf (by omega)
    have := h4 (rmIdx q) (Nat.zero_le _) (by omega)
    rw [cellOf_rmIdx] at this
    simp only [Bool.and_eq_false_iff, decide_eq_false_iff_not] at this
    rcases this with h | h
    · exact fun hqq => h hqq.1
    · exact fun hqq => h hqq.2

theorem findForced_eq_none {s : Sudoku} (h : findForced s = none) :
    ∀ q, ¬(s.cell q = 0 ∧
      0 < only_possible_value (available_values_in_cell s q.1 q.2)) := by
  unfold findForced at h
  rcases hf : (ascList 0 81).find? (fun n =>
      decide (s.cell (cellOf n) = 0) &&
      decide (0 < only_possible_value
        (available_values_in_cell s (cellOf n).1 (cellOf n).2))) with _ | n
  · intro q
    have := find?_ascList_eq_none hf (rmIdx q) (Nat.zero_le _) (by simpa using rmIdx_lt q)
    rw [cellOf_rmIdx] at this
    simp only [Bool.and_eq_false_iff, decide_eq_false_iff_not] at this
    rcases this with h2 | h2
    · exact fun hqq => h2 hqq.1
    · exact fun hqq => h2 hqq.2
  · rw [hf] at h; cases h

/-! ## Fuel congruence and basic frame facts for `step1F` -/

theorem step1F_congr : ∀ f1 f2 (s : Sudoku), numEmpty s < f1 → numEmpty s < f2 →
    step1F f1 s = step1F f2 s := by
  intro f1
  induction f1 with
  | zero => intro f2 s h1 _; omega
  | succ f1 ih =>
    intro f2 s h1 h2
    cases f2 with
    | zero => omega
    | succ f2 =>
      show step1F (f1 + 1) s = step1F (f2 + 1) s
      unfold step1F
      rcases hff : findForced s with _ | ⟨p, v⟩
      · rfl
      · obtain ⟨hp0, hv, _, _⟩ := findForced_eq_some hff
        have hne := numEmpty_fill_cell hp0 (show v ≠ 0 by omega)
        exact ih f2 _ (by omega) (by omega)

theorem step1F_keeps_filled : ∀ fuel (s : Sudoku) (p : Fin 9 × Fin 9),
    s.cell p ≠ 0 → ((step1F fuel s).2).cell p = s.cell p := by
  intro fuel
  induction fuel with
  | zero => intro s p _; rfl
  | succ fuel ih =>
    intro s p hp
    unfold step1F
    rcases hff : findForced s with _ | ⟨q, v⟩
    · rfl
    · obtain ⟨hq0, _, _, _⟩ := findForced_eq_some hff
      have hne : p ≠ q := fun h => hp (h ▸ hq0)
      rw [ih (fill_cell s q.1 q.2 v) p
        (by rw [fill_cell_apply, if_neg hne]; exact hp)]
      rw [fill_cell_apply, if_neg hne]

theorem step1F_returns : ∀ fuel (s : Sudoku), numEmpty s < fuel →
    (step1F fuel s).1 = decide (numEmpty (step1F fuel s).2 = 0) := by
  intro fuel
  induction fuel with
  | zero => intro s h; omega
  | succ fuel ih =>
    intro s hn
    unfold step1F
    rcases hff : findForced s with _ | ⟨p, v⟩
    · rfl
    · obtain ⟨hp0, hv, _, _⟩ := findForced_eq_some hff
      have hne := numEmpty_fill_cell hp0 (show v ≠ 0 by omega)
      exact ih _ (by omega)

/-! ## Soundness of `step1`: forced fills agree with every completion -/

theorem step1F_sound : ∀ fuel (s : Sudoku) (g : Cells), MaskInv s →
    completes s.cell g → completes ((step1F fuel s).2).cell g := by
  intro fuel
  induction fuel with
  | zero => intro s g _ hg; exact hg
  | succ fuel ih =>
    intro s g hM hg
    unfold step1F
    rcases hff : findForced s with _ | ⟨p, v⟩
    · exact hg
    · obtain ⟨hp0, hvpos, hveq, _⟩ := findForced_eq_some hff
      obtain ⟨h1, h9, hpow⟩ := only_possible_value_spec (hveq ▸ hvpos)
      rw [← hveq] at h1 h9 hpow
      have hg19 := hg.1 p
      have hbit : (available_values_in_cell s p.1 p.2).testBit (g p - 1) = true :=
        (avail_testBit hM p (g p) hg19.1 hg19.2).mpr
          (legal_of_completes hg p hp0)
      rw [hpow, Nat.testBit_two_pow] at hbit
      have hgv : g p = v := by
        have := of_decide_eq_true hbit
        omega
      refine ih (fill_cell s p.1 p.2 v) g
        (MaskInv_fill hM hp0 h1 h9) ?_
      rw [fill_cell_cell]
      exact completes_fill hg hgv

/-! ## Counting: a complete duplicate-free unit holds every digit once -/

theorem unit_exists_unique (f : Cells) (hrange : ∀ p, 1 ≤ f p ∧ f p ≤ 9)
    (e : Fin 9 → Fin 9 × Fin 9) (hinj : Function.Injective e)
    (hsame : ∀ i j, sameUnit (e i) (e j))
    (hvalid : ∀ p q, p ≠ q → sameUnit p q → f p ≠ f q)
    (v : Nat) (hv1 : 1 ≤ v) (hv9 : v ≤ 9) : ∃! i : Fin 9, f (e i) = v := by
  have hvinj : Function.Injective
      (fun i : Fin 9 => (⟨f (e i) - 1, by have := hrange (e i); omega⟩ : Fin 9)) := by
    intro i j hij
    by_contra hne
    have hei : e i ≠ e j := fun h => hne (hinj h)
    refine hvalid (e i) (e j) hei (hsame i j) ?_
    have hval : f (e i) - 1 = f (e j) - 1 := congrArg Fin.val hij
    have hi := hrange (e i)
    have hj := hrange (e j)
    omega
  obtain ⟨i, hi⟩ := Finite.injective_iff_surjective.mp hvinj ⟨v - 1, by omega⟩
  have hfi : f (e i) = v := by
    have hval : f (e i) - 1 = v - 1 := congrArg Fin.val hi
    have := hrange (e i)
    omega
  refine ⟨i, hfi, fun j hj => ?_⟩
  apply hvinj
  apply Fin.ext
  show f (e j) - 1 = f (e i) - 1
  rw [hj, hfi]

theorem rowEmb_inj (r : Fin 9) : Function.Injective (rowEmb r) :=
  fun _ _ h => congrArg Prod.snd h

theorem colEmb_inj (c : Fin 9) : Function.Injective (colEmb c) :=
  fun _ _ h => congrArg Prod.fst h

theorem boxEmb_inj (q : Fin 3 × Fin 3) : Function.Injective (boxEmb q) := by
  intro a b h
  have h1 : 3 * q.1.val + a.val / 3 = 3 * q.1.val + b.val / 3 :=
    congrArg (fun p : Fin 9 × Fin 9 => p.1.val) h
  have h2 : 3 * q.2.val + a.val % 3 = 3 * q.2.val + b.val % 3 :=
    congrArg (fun p : Fin 9 × Fin 9 => p.2.val) h
  have ha := a.2
  have hb := b.2
  apply Fin.ext
  omega

theorem sqIdx_boxEmb (q : Fin 3 × Fin 3) (i : Fin 9) : sqIdx (boxEmb q i) = q := by
  have hi := i.2
  have hq1 := q.1.2
  have hq2 := q.2.2
  unfold sqIdx boxEmb
  refine Prod.ext (Fin.ext ?_) (Fin.ext ?_)
  · show (3 * q.1.val + i.val / 3) / 3 = q.1.val
    omega
  · show (3 * q.2.val + i.val % 3) / 3 = q.2.val
    omega

theorem boxEmb_surj {q : Fin 3 × Fin 3} {p : Fin 9 × Fin 9} (h : sqIdx p = q) :
    ∃ i : Fin 9, boxEmb q i = p := by
  have hp1 := p.1.2
  have hp2 := p.2.2
  refine ⟨⟨3 * (p.1.val % 3) + p.2.val % 3, by omega⟩, ?_⟩
  have hq1 : q.1.val = p.1.val / 3 := by rw [← h]; rfl
  have hq2 : q.2.val = p.2.val / 3 := by rw [← h]; rfl
  unfold boxEmb
  refine Prod.ext (Fin.ext ?_) (Fin.ext ?_)
  · show 3 * q.1.val + (3 * (p.1.val % 3) + p.2.val % 3) / 3 = p.1.val
    rw [hq1]; omega
  · show 3 * q.2.val + (3 * (p.1.val % 3) + p.2.val % 3) % 3 = p.2.val
    rw [hq2]; omega

theorem boxEmb_same (q : Fin 3 × Fin 3) (i j : Fin 9) :
    sameUnit (boxEmb q i) (boxEmb q j) :=
  Or.inr (Or.inr (by rw [sqIdx_boxEmb, sqIdx_boxEmb]))

/-! ## `step2FSt`: the state-passing reading agrees with `step2F` -/

theorem tryValuesSt_eq {fo : Sudoku → Option Sudoku} {fs : Sudoku → Bool × Sudoku}
    {s : Sudoku} {r c : Fin 9} {m : Nat}
    (hstep : ∀ x, (fs x).1 = (fo x).isSome) :
    ∀ l, tryValuesSt fs s r c m l = (tryValues fo s r c m l).isSome := by
  intro l
  induction l with
  | nil => rfl
  | cons v vs ih =>
    unfold tryValuesSt tryValues
    by_cases hbit : m &&& BIT_FOR_VALUE v ≠ 0
    · rw [if_pos hbit, if_pos hbit]
      rcases hfo : fo (fill_cell s r c v) with _ | x
      · simp [hstep, hfo, ih]
      · simp [hstep, hfo]
    · rw [if_neg hbit, if_neg hbit]
      exact ih

theorem step2FSt_eq : ∀ fuel (s : Sudoku), step2FSt fuel s = ((step2F fuel s).isSome, s) := by
  intro fuel
  induction fuel with
  | zero => intro s; rfl
  | succ fuel ih =>
    intro s
    unfold step2FSt step2F
    rcases hfe : find_empty_cell s with _ | p
    · rfl
    · simp only
      by_cases hav : available_values_in_cell s p.1 p.2 = 0
      · rw [if_pos hav, if_pos hav]
        simp
      · rw [if_neg hav, if_neg hav,
          tryValuesSt_eq (fun x => by rw [ih x]) valList]

/-! ## `init_sudoku` is a function of the cells alone, and idempotent -/

theorem init_sudoku_eq_of_cells {s t : Sudoku} (h : s.cell = t.cell) :
    init_sudoku s = init_sudoku t := by
  unfold init_sudoku
  have hr : resetMasks s = resetMasks t := by
    unfold resetMasks
    cases s; cases t
    simp_all
  rw [hr]

theorem init_sudoku_idem (s : Sudoku) : init_sudoku (init_sudoku s) = init_sudoku s :=
  init_sudoku_eq_of_cells (init_sudoku_cell s)

/-! ## The specification's invariant: after init, and across legal fills -/

theorem specInv_init (s : Sudoku) (hr : rangeOK s.cell) : specInv (init_sudoku s) := by
  have hcell := init_sudoku_cell s
  constructor
  · intro p hp
    rw [hcell] at hp
    rw [show ∀ q, (init_sudoku s).cell q = s.cell q from fun q => by rw [hcell]]
    have hw9 : s.cell p ≤ 9 := hr p
    refine ⟨?_, ?_, ?_⟩
    · by_contra hb
      rw [Bool.not_eq_false] at hb
      exact (MaskInv_init_row s hr p.1 (s.cell p) (by omega) hw9).mp hb p.2 rfl
    · by_contra hb
      rw [Bool.not_eq_false] at hb
      exact (MaskInv_init_col s hr p.2 (s.cell p) (by omega) hw9).mp hb p.1 rfl
    · by_contra hb
      rw [Bool.not_eq_false] at hb
      exact (MaskInv_init_sqr s hr (sqIdx p) (s.cell p) (by omega) hw9).mp hb p rfl rfl
  · intro p hp v hv10 hv1
    rw [hcell] at hp
    have hiff := avail_testBit (MaskInv_init s hr) p v hv1 (by omega)
    rw [show legal (init_sudoku s).cell p v ↔ legal s.cell p v from by rw [hcell]] at hiff
    rw [show legal (init_sudoku s).cell p v ↔ legal s.cell p v from by rw [hcell]]
    exact hiff

set_option maxHeartbeats 1000000 in
theorem specInv_fill {s : Sudoku} (hS : specInv s) {p : Fin 9 × Fin 9} {v : Nat}
    (hp : s.cell p = 0) (hv1 : 1 ≤ v) (hv9 : v ≤ 9) :
    specInv (fill_cell s p.1 p.2 v) := by
  obtain ⟨hSa, hSb⟩ := hS
  constructor
  · intro q hq
    rw [fill_cell_apply] at hq
    rw [fill_row_apply, fill_col_apply, fill_sqr_apply, fill_cell_apply]
    by_cases hqp : q = p
    · rw [if_pos hqp] at hq ⊢
      rw [hqp, if_pos rfl, if_pos rfl, if_pos rfl]
      rw [testBit_clearBit _ _ _ hv1 (by omega),
        testBit_clearBit _ _ _ hv1 (by omega),
        testBit_clearBit _ _ _ hv1 (by omega)]
      have hvv : decide (v = v - 1 + 1) = true := by simp; omega
      rw [hvv]
      simp
    · rw [if_neg hqp] at hq ⊢
      obtain ⟨ha, hb, hc⟩ := hSa q hq
      refine ⟨?_, ?_, ?_⟩
      · split
        · rename_i hq1
          rw [hq1] at ha
          rw [testBit_clearBit _ _ _ hv1 (by omega), ha]
          simp
        · exact ha
      · split
        · rename_i hq2
          rw [hq2] at hb
          rw [testBit_clearBit _ _ _ hv1 (by omega), hb]
          simp
        · exact hb
      · split
        · rename_i hq3
          rw [hq3] at hc
          rw [testBit_clearBit _ _ _ hv1 (by omega), hc]
          simp
        · exact hc
  · intro q hq w hw10 hw1
    rw [fill_cell_apply] at hq
    by_cases hqp : q = p
    · rw [if_pos hqp] at hq
      omega
    · rw [if_neg hqp] at hq
      have hold := hSb q hq w hw10 hw1
      have hnewmask :
          ((available_values_in_cell (fill_cell s p.1 p.2 v) q.1 q.2).testBit (w - 1)
              = true) ↔
            (((available_values_in_cell s q.1 q.2).testBit (w - 1) = true) ∧
              (sameUnit q p → v ≠ w)) := by
        unfold available_values_in_cell
        rw [fill_row_apply, fill_col_apply, fill_sqr_apply]
        rw [Nat.testBit_and, Nat.testBit_and, Nat.testBit_and, Nat.testBit_and]
        simp only [Bool.and_eq_true]
        have hrw : ((if q.1 = p.1 then clearBit (s.row p.1) v else s.row q.1).testBit (w - 1) = true) ↔
            (((s.row q.1).testBit (w - 1) = true) ∧ (q.1 = p.1 → v ≠ w)) := by
          by_cases h : q.1 = p.1
          · rw [if_pos h, h, testBit_clearBit_iff hv1 (by omega) hw1 (by omega)]
            tauto
          · rw [if_neg h]
            tauto
        have hcw : ((if q.2 = p.2 then clearBit (s.col p.2) v else s.col q.2).testBit (w - 1) = true) ↔
            (((s.col q.2).testBit (w - 1) = true) ∧ (q.2 = p.2 → v ≠ w)) := by
          by_cases h : q.2 = p.2
          · rw [if_pos h, h, testBit_clearBit_iff hv1 (by omega) hw1 (by omega)]
            tauto
          · rw [if_neg h]
            tauto
        have hsw : ((if sqIdx q = sqIdx p then clearBit (s.sqr (sqIdx p)) v else s.sqr (sqIdx q)).testBit (w - 1) = true) ↔
            (((s.sqr (sqIdx q)).testBit (w - 1) = true) ∧ (sqIdx q = sqIdx p → v ≠ w)) := by
          by_cases h : sqIdx q = sqIdx p
          · rw [if_pos h, h, testBit_clearBit_iff hv1 (by omega) hw1 (by omega)]
            tauto
          · rw [if_neg h]
            tauto
        rw [hrw, hcw, hsw]
        unfold sameUnit
        constructor
        · rintro ⟨⟨⟨hA, h1⟩, hB, h2⟩, hC, h3⟩
          exact ⟨⟨⟨hA, hB⟩, hC⟩, fun hsu => hsu.elim h1 fun hsu2 => hsu2.elim h2 h3⟩
        · rintro ⟨⟨⟨hA, hB⟩, hC⟩, himp⟩
          exact ⟨⟨⟨hA, fun h => himp (Or.inl h)⟩, hB, fun h => himp (Or.inr (Or.inl h))⟩,
            hC, fun h => himp (Or.inr (Or.inr h))⟩
      have hnewleg : legal (fill_cell s p.1 p.2 v).cell q w ↔
          (legal s.cell q w ∧ (sameUnit q p → v ≠ w)) := by
        constructor
        · intro hl
          constructor
          · intro x hx hfx
            by_cases hxp : x = p
            · rw [hxp, hp] at hfx
              omega
            · have := hl x hx
              rw [fill_cell_apply, if_neg hxp] at this
              exact this hfx
          · intro hsu hvw
            have := hl p hsu
            rw [fill_cell_apply, if_pos rfl] at this
            exact this hvw
        · rintro ⟨hl, himp⟩ x hx
          rw [fill_cell_apply]
          by_cases hxp : x = p
          · rw [if_pos hxp]
            exact himp (hxp ▸ hx)
          · rw [if_neg hxp]
            exact hl x hx
      rw [hnewmask, hnewleg, hold]

/-! ## One-step unfolding helpers -/

theorem step1F_stuck {s : Sudoku} {f : Nat} (h : findForced s = none) :
    step1F (f + 1) s = (decide (numEmpty s = 0), s) := by
  unfold step1F
  rw [h]

theorem step1F_succ_some {s : Sudoku} {f : Nat} {p : Fin 9 × Fin 9} {v : Nat}
    (h : findForced s = some (p, v)) :
    step1F (f + 1) s = step1F f (fill_cell s p.1 p.2 v) := by
  conv_lhs => unfold step1F
  rw [h]

theorem step2F_succ_some {s : Sudoku} {f : Nat} {p : Fin 9 × Fin 9}
    (h : find_empty_cell s = some p)
    (hav : available_values_in_cell s p.1 p.2 ≠ 0) :
    step2F (f + 1) s =
      tryValues (step2F f) s p.1 p.2 (available_values_in_cell s p.1 p.2) valList := by
  unfold step2F
  rw [h]
  simp [hav]

theorem tryValues_first {f : Sudoku → Option Sudoku} {s : Sudoku} {r c : Fin 9}
    {m : Nat} {g : Sudoku} {v : Nat} :
    ∀ n k, v ∈ ascList k n → m &&& BIT_FOR_VALUE v ≠ 0 →
      f (fill_cell s r c v) = some g →
      (∀ w, k ≤ w → w < v → m &&& BIT_FOR_VALUE w ≠ 0 → f (fill_cell s r c w) = none) →
      tryValues f s r c m (ascList k n) = some g := by
  intro n
  induction n with
  | zero => intro k hmem _ _ _; simp [ascList] at hmem
  | succ n ih =>
    intro k hmem hbit hsucc hfail
    have hkv := (ascList_mem (n + 1) k v).mp hmem
    show tryValues f s r c m (k :: ascList (k + 1) n) = some g
    by_cases hvk : v = k
    · subst hvk
      unfold tryValues
      rw [if_pos hbit, hsucc]
    · have hkv2 : k < v := by omega
      have hmem2 : v ∈ ascList (k + 1) n := (ascList_mem n (k + 1) v).mpr ⟨by omega, by omega⟩
      unfold tryValues
      by_cases hbk : m &&& BIT_FOR_VALUE k ≠ 0
      · rw [if_pos hbk, hfail k (le_refl k) hkv2 hbk]
        exact ih (k + 1) hmem2 hbit hsucc fun w h1 h2 h3 => hfail w (by omega) h2 h3
      · rw [if_neg hbk]
        exact ih (k + 1) hmem2 hbit hsucc fun w h1 h2 h3 => hfail w (by omega) h2 h3

/-! ## Shared concrete-grid facts (proved by evaluation) -/

theorem GOne_range : rangeOK GOne.cell := by decide

theorem GOne_noDups : noDups GOne.cell := by decide

theorem GOne_init : GOne = init_sudoku GOne := by decide

theorem GOne_completes : completes GOne.cell solvedCells := by decide

theorem GOne_step2 : step2 GOne = some GOneFilled := by decide

theorem GOne_step2fill : step2 (fill_cell GOne 0 0 1) = some GOneFilled := by decide

theorem GCorner_specInv : specInv GCorner := by decide

theorem GCorner_fill_not_specInv : ¬ specInv (fill_cell GCorner 0 0 2) := by decide

/-! ## The claims -/

/-- C1: completeness of the exhaustive solver.  For every grid whose cells
lie in `[0, 9]`, whose nonzero entries contain no row/column/square
duplicate, and whose masks are those computed by `init_sudoku` from its
cells, `step2` returns a solution (`some`) exactly when a valid completion
of the grid exists; when none exists it returns `none` (Unsolvable). -/
theorem C1_exhaustive_complete (s : Sudoku)
    (hrange : rangeOK s.cell) (hdup : noDups s.cell) (hinit : s = init_sudoku s) :
    (∃ g : Cells, completes s.cell g) ↔ (step2 s).isSome = true := by
  have hM : MaskInv s := by rw [hinit]; exact MaskInv_init s hrange
  have hG : Good s := ⟨hM, hdup, hrange⟩
  constructor
  · intro hsol
    exact step2F_complete 82 s (by have := numEmpty_le_81 s; omega) hG hsol
  · intro hsome
    rcases hg : step2 s with _ | g
    · rw [hg] at hsome
      simp at hsome
    · exact ⟨g.cell, step2F_sound 82 s g hG hg⟩

/-- C1 witness: the hypotheses of `C1_exhaustive_complete` hold for the
concrete one-hole grid `GOne`, and the theorem yields its conclusion
there. -/
theorem C1_witness :
    rangeOK GOne.cell ∧ noDups GOne.cell ∧ GOne = init_sudoku GOne ∧
      ((∃ g : Cells, completes GOne.cell g) ↔ (step2 GOne).isSome = true) :=
  ⟨GOne_range, GOne_noDups, GOne_init,
    C1_exhaustive_complete GOne GOne_range GOne_noDups GOne_init⟩

/-- C2: correctness of a Solved result.  When `step2` returns a grid `t`
from an initialized duplicate-free grid `s`, then `t` is fully filled with
digits 1-9, every row, column and square of `t` holds each digit exactly
once, and every cell that was nonzero in `s` keeps its value in `t`. -/
theorem C2_solved_valid (s t : Sudoku)
    (hrange : rangeOK s.cell) (hdup : noDups s.cell) (hinit : s = init_sudoku s)
    (hsolve : step2 s = some t) :
    (∀ p, 1 ≤ t.cell p ∧ t.cell p ≤ 9) ∧
    (∀ r : Fin 9, ∀ v : Nat, 1 ≤ v → v ≤ 9 → ∃! c : Fin 9, t.cell (r, c) = v) ∧
    (∀ c : Fin 9, ∀ v : Nat, 1 ≤ v → v ≤ 9 → ∃! r : Fin 9, t.cell (r, c) = v) ∧
    (∀ q : Fin 3 × Fin 3, ∀ v : Nat, 1 ≤ v → v ≤ 9 →
      ∃! p : Fin 9 × Fin 9, sqIdx p = q ∧ t.cell p = v) ∧
    (∀ p, s.cell p ≠ 0 → t.cell p = s.cell p) := by
  have hM : MaskInv s := by rw [hinit]; exact MaskInv_init s hrange
  have hcomp := step2F_sound 82 s t ⟨hM, hdup, hrange⟩ hsolve
  obtain ⟨hrange2, hvalid, hext⟩ := hcomp
  refine ⟨hrange2, ?_, ?_, ?_, hext⟩
  · intro r v hv1 hv9
    exact unit_exists_unique t.cell hrange2 (rowEmb r) (rowEmb_inj r)
      (fun i j => Or.inl rfl) hvalid v hv1 hv9
  · intro c v hv1 hv9
    exact unit_exists_unique t.cell hrange2 (colEmb c) (colEmb_inj c)
      (fun i j => Or.inr (Or.inl rfl)) hvalid v hv1 hv9
  · intro q v hv1 hv9
    obtain ⟨i, hi, huniq⟩ := unit_exists_unique t.cell hrange2 (boxEmb q)
      (boxEmb_inj q) (boxEmb_same q) hvalid v hv1 hv9
    refine ⟨boxEmb q i, ⟨sqIdx_boxEmb q i, hi⟩, ?_⟩
    rintro p ⟨hp1, hp2⟩
    obtain ⟨j, hj⟩ := boxEmb_surj hp1
    rw [← hj, huniq j (show t.cell (boxEmb q j) = v from by rw [hj]; exact hp2)]

/-- C2 witness: on the one-hole grid `GOne`, `step2` returns `GOneFilled`
and the theorem yields that grid's validity and preservation facts. -/
theorem C2_witness :
    step2 GOne = some GOneFilled ∧
      (∀ p, 1 ≤ GOneFilled.cell p ∧ GOneFilled.cell p ≤ 9) ∧
      (∀ p, GOne.cell p ≠ 0 → GOneFilled.cell p = GOne.cell p) :=
  ⟨GOne_step2,
    (C2_solved_valid GOne GOneFilled GOne_range GOne_noDups GOne_init GOne_step2).1,
    (C2_solved_valid GOne GOneFilled GOne_range GOne_noDups GOne_init
      GOne_step2).2.2.2.2⟩

/-- C3 counterexample: on the grid `GRow` (row 0 holds 1..8, everything
else empty), `step1` commits the forced fill (0,8) := 9, then returns
NotFound — so a `NotFound` return does not leave the grid unchanged, and
the driver hands the exhaustive solver the partially filled grid, not the
original. -/
theorem C3_counterexample :
    (step1 GRow).1 = false ∧ GRow.cell (0, 8) = 0 ∧
      ((step1 GRow).2).cell (0, 8) = 9 := by
  refine ⟨?_, ?_, ?_⟩ <;> decide

/-- C3 amended: when `step1` fails, the driver invokes `step2` on the grid
`step1` left behind — the original grid with `step1`'s committed forced
fills applied in place.  Every originally filled cell keeps its value, but
committed fills are not undone. -/
theorem C3_fallback_grid (s : Sudoku) :
    (∀ p, s.cell p ≠ 0 → ((step1 s).2).cell p = s.cell p) ∧
    ((step1 s).1 = false → main_solve s = (step2 (step1 s).2).isSome) := by
  constructor
  · intro p hp
    exact step1F_keeps_filled 82 s p hp
  · intro h1
    simp [main_solve, h1]

/-- C3 witness: the amended statement instantiated on `GRow`. -/
theorem C3_witness :
    ((step1 GRow).2).cell (0, 0) = GRow.cell (0, 0) ∧
      main_solve GRow = (step2 (step1 GRow).2).isSome :=
  ⟨(C3_fallback_grid GRow).1 (0, 0) (by decide),
   (C3_fallback_grid GRow).2 (by decide)⟩

/-- C4: the propagation solver's contract.  (i) `step1` reports Solved
exactly when its final grid has no empty cell; (ii) a full scan pass that
finds no single-candidate empty cell ends the run, with NotFound exactly
when empty cells remain, and the grid untouched by that pass;
(iii) a commit happens only at the row-major-first empty cell whose
candidate mask is a single bit (the bit of the committed digit);
(iv) after each commit the scan restarts from the top on the updated
grid. -/
theorem C4_propagation_contract (s : Sudoku) :
    ((step1 s).1 = true ↔ numEmpty (step1 s).2 = 0) ∧
    (findForced s = none → step1 s = (decide (numEmpty s = 0), s)) ∧
    (∀ p v, findForced s = some (p, v) →
      s.cell p = 0 ∧ available_values_in_cell s p.1 p.2 = BIT_FOR_VALUE v ∧
      1 ≤ v ∧ v ≤ 9 ∧
      ∀ q, rmIdx q < rmIdx p →
        ¬(s.cell q = 0 ∧
          0 < only_possible_value (available_values_in_cell s q.1 q.2))) ∧
    (∀ p v, findForced s = some (p, v) →
      step1 s = step1 (fill_cell s p.1 p.2 v)) := by
  have h81 := numEmpty_le_81 s
  refine ⟨?_, ?_, ?_, ?_⟩
  · rw [show step1 s = step1F 82 s from rfl, step1F_returns 82 s (by omega)]
    simp
  · intro h
    exact step1F_stuck h
  · intro p v h
    obtain ⟨hp0, hvpos, hveq, hmin⟩ := findForced_eq_some h
    obtain ⟨h1, h9, hpow⟩ := only_possible_value_spec (hveq ▸ hvpos)
    rw [← hveq] at h1 h9 hpow
    exact ⟨hp0, by rw [hpow, BIT_FOR_VALUE_eq], h1, h9, hmin⟩
  · intro p v h
    obtain ⟨hp0, hvpos, _, _⟩ := findForced_eq_some h
    have hne := numEmpty_fill_cell hp0 (show v ≠ 0 by omega)
    rw [show step1 s = step1F 82 s from rfl, step1F_succ_some h]
    exact step1F_congr 81 82 (fill_cell s p.1 p.2 v) (by omega) (by omega)

/-- C4 witness: on `GRow` the scan finds the forced cell (0,8) with digit
9, and the run equals the run restarted after that commit. -/
theorem C4_witness :
    findForced GRow = some ((0, 8), 9) ∧
      step1 GRow = step1 (fill_cell GRow 0 8 9) :=
  ⟨by decide, (C4_propagation_contract GRow).2.2.2 (0, 8) 9 (by decide)⟩

/-- C5: propagation soundness.  For an initialized grid `s` and any valid
completion `g` of it, the grid `step1` leaves behind is still completed by
`g`; in particular every value `step1` commits agrees with `g`, so a
forced fill never turns a solvable grid into an unsolvable one. -/
theorem C5_propagation_sound (s : Sudoku) (g : Cells)
    (hinit : s = init_sudoku s) (hcomp : completes s.cell g) :
    completes ((step1 s).2).cell g := by
  have hrange : rangeOK s.cell := by
    intro p
    by_cases h : s.cell p = 0
    · rw [h]; omega
    · rw [← hcomp.2.2 p h]
      exact (hcomp.1 p).2
  have hM : MaskInv s := by rw [hinit]; exact MaskInv_init s hrange
  exact step1F_sound 82 s g hM hcomp

/-- C5 witness: the solved grid `solvedCells` completes `GOne`, and it
still completes the grid `step1` leaves. -/
theorem C5_witness : completes ((step1 GOne).2).cell solvedCells :=
  C5_propagation_sound GOne solvedCells GOne_init GOne_completes

/-- C6 counterexample: the claim omits that the filled cell must be empty.
`GCorner` (only cell (0,0) = 1, masks initialized) satisfies the
invariant, the bit of digit 2 is set in all three masks of cell (0,0), yet
(0,0) is not empty, and overwriting it with `fill_cell` breaks the
invariant (digit 1 disappears from row 0 but its mask bit stays
cleared). -/
theorem C6_counterexample :
    specInv GCorner ∧ GCorner.cell (0, 0) ≠ 0 ∧
      (GCorner.row 0).testBit 1 = true ∧ (GCorner.col 0).testBit 1 = true ∧
      (GCorner.sqr (0, 0)).testBit 1 = true ∧
      ¬ specInv (fill_cell GCorner 0 0 2) :=
  ⟨GCorner_specInv, by decide, by decide, by decide, by decide,
    GCorner_fill_not_specInv⟩

/-- C6 amended: the mask/cell consistency invariant holds after
`init_sudoku` (for cells in `[0, 9]`) and is preserved by every
`fill_cell` at an *empty* cell with a digit `1..9` whose bit is set in all
three relevant masks. -/
theorem C6_mask_invariant :
    (∀ s : Sudoku, rangeOK s.cell → specInv (init_sudoku s)) ∧
    (∀ (s : Sudoku) (p : Fin 9 × Fin 9) (v : Nat),
      specInv s → s.cell p = 0 → 1 ≤ v → v ≤ 9 →
      (s.row p.1).testBit (v - 1) = true → (s.col p.2).testBit (v - 1) = true →
      (s.sqr (sqIdx p)).testBit (v - 1) = true →
      specInv (fill_cell s p.1 p.2 v)) :=
  ⟨specInv_init,
   fun _ _ _ hS hp hv1 hv9 _ _ _ => specInv_fill hS hp hv1 hv9⟩

/-- C6 witness: the invariant after initializing the one-hole grid, and
its preservation by the legal fill (0,0) := 1 there. -/
theorem C6_witness : specInv GOne ∧ specInv (fill_cell GOne 0 0 1) := by
  have hspec : specInv GOne :=
    C6_mask_invariant.1 (withCells oneHoleCells) (by decide)
  exact ⟨hspec,
    C6_mask_invariant.2 GOne (0, 0) 1 hspec (by decide) (by norm_num) (by norm_num)
      (by decide) (by decide) (by decide)⟩

/-- C7: determinism and tie-breaks of the exhaustive solver.  `step2` is a
function of the input grid (two runs agree by definition); the branch cell
is always the row-major-first empty cell, and among the available digits
of that cell the returned solution is the one produced by the smallest
succeeding digit, digits being tried in ascending order 1..9. -/
theorem C7_determinism (s : Sudoku) :
    (∀ p, find_empty_cell s = some p →
      s.cell p = 0 ∧ ∀ q, rmIdx q < rmIdx p → s.cell q ≠ 0) ∧
    (find_empty_cell s = none → ∀ p, s.cell p ≠ 0) ∧
    (∀ (p : Fin 9 × Fin 9) (g : Sudoku) (v : Nat), find_empty_cell s = some p →
      1 ≤ v → v ≤ 9 →
      (available_values_in_cell s p.1 p.2).testBit (v - 1) = true →
      step2 (fill_cell s p.1 p.2 v) = some g →
      (∀ w, 1 ≤ w → w < v →
        (available_values_in_cell s p.1 p.2).testBit (w - 1) = true →
        step2 (fill_cell s p.1 p.2 w) = none) →
      step2 s = some g) := by
  refine ⟨fun p => find_empty_cell_eq_some, find_empty_cell_eq_none, ?_⟩
  intro p g v hfe hv1 hv9 hbit hsucc hfail
  have hp0 := (find_empty_cell_eq_some hfe).1
  have hav : available_values_in_cell s p.1 p.2 ≠ 0 := testBit_ne_zero hbit
  have h81 := numEmpty_le_81 s
  have hfuel : ∀ w, w ≠ 0 → step2F 81 (fill_cell s p.1 p.2 w) =
      step2 (fill_cell s p.1 p.2 w) := by
    intro w hw
    have hne := numEmpty_fill_cell hp0 hw
    exact step2F_congr 81 82 _ (by omega) (by omega)
  rw [show step2 s = step2F 82 s from rfl, step2F_succ_some hfe hav]
  refine tryValues_first 9 1 (by rw [ascList_mem]; omega)
    (avail_and_bit_ne_zero.mpr hbit) ?_ ?_
  · rw [hfuel v (by omega)]
    exact hsucc
  · intro w h1 h2 h3
    rw [hfuel w (by omega)]
    exact hfail w h1 h2 (avail_and_bit_ne_zero.mp h3)

/-- C7 witness: on `GOne` the branch cell is (0,0), digit 1 is available
there, filling it succeeds, no smaller digit exists, and `step2` returns
exactly that branch's solution. -/
theorem C7_witness : step2 GOne = some GOneFilled :=
  (C7_determinism GOne).2.2 (0, 0) GOneFilled 1 (by decide) (by norm_num)
    (by norm_num) (by decide) GOne_step2fill
    (fun w h1 h2 _ => absurd h2 (by omega))

/-- C8: termination and recursion depth.  Every grid has at most 81 empty
cells, and running `step2F` with fuel `numEmpty s + 1` — one unit per
level of recursion, so recursion depth at most the number of empty
cells — already yields the result of `step2` (fuel 82). -/
theorem C8_termination (s : Sudoku) :
    numEmpty s ≤ 81 ∧ step2F (numEmpty s + 1) s = step2 s :=
  ⟨numEmpty_le_81 s,
    step2F_congr (numEmpty s + 1) 82 s (by omega)
      (by have := numEmpty_le_81 s; omega)⟩

/-- C9: idempotence of mask initialization.  `init_sudoku` never changes
the cells, is a function of the cells alone, and applying it twice equals
applying it once. -/
theorem C9_init_idempotent (s t : Sudoku) :
    init_sudoku (init_sudoku s) = init_sudoku s ∧
    (s.cell = t.cell → init_sudoku s = init_sudoku t) ∧
    (init_sudoku s).cell = s.cell :=
  ⟨init_sudoku_idem s, init_sudoku_eq_of_cells, init_sudoku_cell s⟩

/-- C9 witness: the masks of `GOne` rebuilt from its cells alone agree
with rebuilding on `GOne` itself. -/
theorem C9_witness :
    init_sudoku (init_sudoku GOne) = init_sudoku GOne ∧
      init_sudoku (withCells oneHoleCells) =
        init_sudoku { withCells oneHoleCells with row := fun _ => 7 } :=
  ⟨(C9_init_idempotent GOne GOne).1,
   (C9_init_idempotent (withCells oneHoleCells)
      { withCells oneHoleCells with row := fun _ => 7 }).2.1 rfl⟩

/-- C10: the exhaustive solver never mutates its argument.  In the
state-passing reading `step2St`, which threads the caller's grid through
the call (every trial write goes to the fresh copy made by `fill_cell`),
the grid handed back is the caller's grid unchanged — cells and all
masks — whatever the outcome, and the outcome agrees with `step2`. -/
theorem C10_no_mutation (s : Sudoku) :
    (step2St s).2 = s ∧ (step2St s).1 = (step2 s).isSome := by
  constructor <;>
    rw [show step2St s = ((step2 s).isSome, s) from step2FSt_eq 82 s]

end SudokuSrc
